import Mathlib

/-!
Shallow embedding of the DRSA model (Deep Recurrent Survival Analysis)
from `src/notebooks/01_model.ipynb` (exported module `drsa.model`).

Modelling conventions:
* Tensor entries and learned weights are exact rationals (ℚ), idealizing the
  floating-point values of the source; the numerical forward computation
  (LSTM gates, sigmoid, tanh) is idealized over ℝ by casting.
* A tensor is a shape (list of dimension sizes) together with a total entry
  function; only entries at in-range indices are meaningful.
* Fallible operations return `Except`.  The source performs no validation of
  its own: every error below models an exception raised inside PyTorch
  (`IndexError` from slicing or embedding lookup, `RuntimeError` from the
  LSTM input-size check or tensor construction).  The error constructors
  record which operation raised, so that the spec taxonomy (ConfigurationError
  / ShapeError / IndexError) can be interpreted over them.
-/

/-- Truncation toward zero, the semantics of `tensor.long()` in the source:
`X[:, :, i].long()` casts a float column to int64 by truncating toward zero. -/
def truncQ (q : ℚ) : ℤ := if 0 ≤ q then ⌊q⌋ else ⌈q⌉

/-- An `nn.Embedding` table: vocabulary size `num_embeddings`, output width
`embedding_dim`, and a learned weight matrix (row index, column index). -/
structure EmbTable where
  num_embeddings : ℕ
  embedding_dim : ℕ
  weight : ℕ → ℕ → ℚ

/-- The weights and configuration of `nn.LSTM(input_size, hidden_size,
num_layers, batch_first=True, dropout=dropout)`.  Gate weights follow the
standard LSTM formulation (input `i`, forget `f`, cell `g`, output `o`),
per layer: `w_ih_*` multiply the layer input, `w_hh_*` the hidden state. -/
structure LSTMWeights where
  input_size : ℕ
  hidden_size : ℕ
  num_layers : ℕ
  dropout : ℚ
  w_ih_i : ℕ → ℕ → ℕ → ℚ
  w_ih_f : ℕ → ℕ → ℕ → ℚ
  w_ih_g : ℕ → ℕ → ℕ → ℚ
  w_ih_o : ℕ → ℕ → ℕ → ℚ
  w_hh_i : ℕ → ℕ → ℕ → ℚ
  w_hh_f : ℕ → ℕ → ℕ → ℚ
  w_hh_g : ℕ → ℕ → ℕ → ℚ
  w_hh_o : ℕ → ℕ → ℕ → ℚ
  b_ih_i : ℕ → ℕ → ℚ
  b_ih_f : ℕ → ℕ → ℚ
  b_ih_g : ℕ → ℕ → ℚ
  b_ih_o : ℕ → ℕ → ℚ
  b_hh_i : ℕ → ℕ → ℚ
  b_hh_f : ℕ → ℕ → ℚ
  b_hh_g : ℕ → ℕ → ℚ
  b_hh_o : ℕ → ℕ → ℚ

/-- An `nn.Linear(in_features, out_features)` layer. -/
structure LinearLayer where
  in_features : ℕ
  out_features : ℕ
  weight : ℕ → ℕ → ℚ
  bias : ℕ → ℚ

/-- The DRSA model: the fields stored by `DRSA.__init__`
(`self.n_features`, `self.n_layers`, `self.hidden_dim`, `self.embeddings`,
`self.lstm`, `self.fc`, `self.linear_dropout` probability). -/
structure DRSA where
  n_features : ℕ
  hidden_dim : ℕ
  n_layers : ℕ
  embeddings : List EmbTable
  lstm : LSTMWeights
  fc : LinearLayer
  linear_dropout : ℚ

/-- Errors raised during construction (`DRSA.__init__`).  The source performs
no validation of its own; these model exceptions raised inside PyTorch
constructors: `nn.LSTM` / `nn.Dropout` reject a dropout probability outside
[0,1] (ValueError), and creating the LSTM weight tensors with a negative
derived input size raises a RuntimeError. -/
inductive ConfigError where
  | badLSTMDropout : ConfigError
  | negativeDim : ConfigError
  | badLinearDropout : ConfigError
deriving DecidableEq

/-- Errors raised during `DRSA.forward`, in the source all raised inside
PyTorch operations:
* `rankError`: the input tensor does not have rank 3 (slicing `X[:, :, i]`
  raises IndexError for rank < 3; `torch.cat` / the LSTM call raise
  RuntimeError for rank > 3);
* `sliceError i`: column slice `X[:, :, i]` is out of the trailing dimension
  (IndexError);
* `indexError i`: a code in categorical column `i` truncates outside the
  vocabulary of embedding table `i` (IndexError from the embedding lookup);
* `sizeError`: the fused feature width does not match the LSTM's configured
  `input_size` (RuntimeError from the LSTM call). -/
inductive FwdError where
  | rankError : FwdError
  | sliceError : ℕ → FwdError
  | indexError : ℕ → FwdError
  | sizeError : FwdError
deriving DecidableEq

/-- The spec's ShapeError category: errors caused by the input tensor's rank
or trailing dimension not matching, as opposed to vocabulary-bound errors
(the spec's IndexError category). -/
def FwdError.isShapeError : FwdError → Bool
  | FwdError.indexError _ => false
  | _ => true

/-- A rank-3 input tensor with rational entries (shape, entry function). -/
structure TensorQ where
  shape : List ℕ
  entry : ℕ → ℕ → ℕ → ℚ

/-- An output tensor with real entries. -/
structure TensorR where
  shape : List ℕ
  entry : ℕ → ℕ → ℕ → ℝ

/-- Initial weights handed to construction (PyTorch draws them randomly;
here they are explicit inputs). -/
structure RawWeights where
  w_ih_i : ℕ → ℕ → ℕ → ℚ
  w_ih_f : ℕ → ℕ → ℕ → ℚ
  w_ih_g : ℕ → ℕ → ℕ → ℚ
  w_ih_o : ℕ → ℕ → ℕ → ℚ
  w_hh_i : ℕ → ℕ → ℕ → ℚ
  w_hh_f : ℕ → ℕ → ℕ → ℚ
  w_hh_g : ℕ → ℕ → ℕ → ℚ
  w_hh_o : ℕ → ℕ → ℕ → ℚ
  b_ih_i : ℕ → ℕ → ℚ
  b_ih_f : ℕ → ℕ → ℚ
  b_ih_g : ℕ → ℕ → ℚ
  b_ih_o : ℕ → ℕ → ℚ
  b_hh_i : ℕ → ℕ → ℚ
  b_hh_f : ℕ → ℕ → ℚ
  b_hh_g : ℕ → ℕ → ℚ
  b_hh_o : ℕ → ℕ → ℚ
  fc_w : ℕ → ℕ → ℚ
  fc_b : ℕ → ℚ

/-- The derived encoder input width computed in `DRSA.__init__`:
`sum([emb.embedding_dim for emb in self.embeddings]) + self.n_features -
len(self.embeddings)` (Python int arithmetic, hence computed in ℤ). -/
def encWidth (n_features : ℕ) (embeddings : List EmbTable) : ℤ :=
  ((embeddings.map (fun e => e.embedding_dim)).sum : ℤ)
    + (n_features : ℤ) - (embeddings.length : ℤ)

/-- Construction, `DRSA.__init__`.  The source validates nothing itself; the
only failures are the PyTorch ones documented on `ConfigError`, in
construction order: `nn.LSTM` first checks its dropout argument, then
creates its weight tensors (failing for a negative input size);
`nn.Dropout(Linear_dropout)` is constructed after. -/
def drsaInit (n_features hidden_dim n_layers : ℕ) (embeddings : List EmbTable)
    (output_size : ℕ) (LSTM_dropout Linear_dropout : ℚ) (w : RawWeights) :
    Except ConfigError DRSA :=
  if LSTM_dropout < 0 ∨ 1 < LSTM_dropout then Except.error ConfigError.badLSTMDropout
  else if encWidth n_features embeddings < 0 then Except.error ConfigError.negativeDim
  else if Linear_dropout < 0 ∨ 1 < Linear_dropout then
    Except.error ConfigError.badLinearDropout
  else Except.ok
    { n_features := n_features
      hidden_dim := hidden_dim
      n_layers := n_layers
      embeddings := embeddings
      lstm :=
        { input_size := (encWidth n_features embeddings).toNat
          hidden_size := hidden_dim
          num_layers := n_layers
          dropout := LSTM_dropout
          w_ih_i := w.w_ih_i, w_ih_f := w.w_ih_f
          w_ih_g := w.w_ih_g, w_ih_o := w.w_ih_o
          w_hh_i := w.w_hh_i, w_hh_f := w.w_hh_f
          w_hh_g := w.w_hh_g, w_hh_o := w.w_hh_o
          b_ih_i := w.b_ih_i, b_ih_f := w.b_ih_f
          b_ih_g := w.b_ih_g, b_ih_o := w.b_ih_o
          b_hh_i := w.b_hh_i, b_hh_f := w.b_hh_f
          b_hh_g := w.b_hh_g, b_hh_o := w.b_hh_o }
      fc :=
        { in_features := hidden_dim
          out_features := output_size
          weight := w.fc_w
          bias := w.fc_b }
      linear_dropout := Linear_dropout }

/-- Sum of the embedding dimensions of the model's tables. -/
def embDimSum (m : DRSA) : ℕ := (m.embeddings.map (fun e => e.embedding_dim)).sum

/-- Width of the fused feature tensor produced in `forward` for an input
whose trailing dimension is `F`: each embedding contributes its dimension and
the continuous block `X[:, :, k:]` contributes `F - k` columns. -/
def fusedDim (m : DRSA) (F : ℕ) : ℕ := embDimSum m + (F - m.embeddings.length)

/-- Whether value `q`, truncated toward zero, falls outside the vocabulary
`[0, num_embeddings)` of table `emb` (PyTorch embedding lookup neither clamps
nor wraps: such an index raises IndexError). -/
def oovB (emb : EmbTable) (q : ℚ) : Bool :=
  decide (truncQ q < 0 ∨ (emb.num_embeddings : ℤ) ≤ truncQ q)

/-- Whether categorical column `i` of the input holds any out-of-vocabulary
code at an in-range (batch, timestep) position. -/
def hasOOV (B T : ℕ) (emb : EmbTable) (x : ℕ → ℕ → ℕ → ℚ) (i : ℕ) : Bool :=
  (List.range B).any (fun b => (List.range T).any (fun t => oovB emb (x b t i)))

/-- The error, if any, raised while processing categorical column `i` in the
comprehension `[emb(X[:, :, i].long()) for i, emb in enumerate(self.embeddings)]`:
first the slice `X[:, :, i]` (IndexError when `i` is out of the trailing
dimension `F`), then the lookup (IndexError on an out-of-vocabulary code). -/
def embColErr (m : DRSA) (B T F : ℕ) (x : ℕ → ℕ → ℕ → ℚ) (i : ℕ) : Option FwdError :=
  if F ≤ i then some (FwdError.sliceError i)
  else
    match m.embeddings.get? i with
    | none => none
    | some emb => if hasOOV B T emb x i then some (FwdError.indexError i) else none

/-- First error among positions `0, 1, ..., n-1`, in order — the order in
which the Python comprehension evaluates the columns. -/
def firstErr (f : ℕ → Option FwdError) : ℕ → Option FwdError
  | 0 => none
  | n + 1 =>
    match firstErr f n with
    | some e => some e
    | none => f n

/-- The error, if any, raised by `forward` on a rank-3 input of shape
(B, T, F): the embedding loop in column order, then the LSTM's input-size
check on the fused features. -/
def forwardCheck3 (m : DRSA) (B T F : ℕ) (x : ℕ → ℕ → ℕ → ℚ) : Option FwdError :=
  match firstErr (embColErr m B T F x) m.embeddings.length with
  | some e => some e
  | none =>
    if fusedDim m F = m.lstm.input_size then none else some FwdError.sizeError

/-- Destructure a shape as rank 3. -/
def shapeBTF : List ℕ → Option (ℕ × ℕ × ℕ)
  | [B, T, F] => some (B, T, F)
  | _ => none

/-- Boolean success test for an `Except` result. -/
def exceptOk {ε α : Type _} : Except ε α → Bool
  | Except.ok _ => true
  | Except.error _ => false

/-- Semantics of `torch.cat(..., dim=-1)` on a list of (width, vector)
pieces: index `j` reads from the first piece while `j` is within its width,
otherwise recurses with the offset removed. -/
def catPieces : List (ℕ × (ℕ → ℚ)) → ℕ → ℚ
  | [], _ => 0
  | (w, v) :: rest, j => if j < w then v j else catPieces rest (j - w)

/-- The embedding pieces of the fusion, starting at column index `i0`:
`emb(X[:, :, i].long())` for each table in order, at batch `b`, timestep `t`.
Mirrors `enumerate(self.embeddings)`. -/
def embPiecesFrom (x : ℕ → ℕ → ℕ → ℚ) (b t : ℕ) : ℕ → List EmbTable → List (ℕ × (ℕ → ℚ))
  | _, [] => []
  | i, emb :: rest =>
    (emb.embedding_dim, fun d => emb.weight (truncQ (x b t i)).toNat d)
      :: embPiecesFrom x b t (i + 1) rest

/-- The fused per-timestep feature vector built in `forward`:
`torch.cat(all_embeddings + [other_features.float()], dim=-1)` where
`other_features = X[:, :, len(self.embeddings):]` has width `F - k` for an
input of trailing dimension `F`. -/
def fusedQ (m : DRSA) (F : ℕ) (x : ℕ → ℕ → ℕ → ℚ) (b t : ℕ) : ℕ → ℚ :=
  catPieces
    (embPiecesFrom x b t 0 m.embeddings
      ++ [(F - m.embeddings.length, fun r => x b t (m.embeddings.length + r))])

/-- Total width of a piece list. -/
def totalWidth (ps : List (ℕ × (ℕ → ℚ))) : ℕ := (ps.map Prod.fst).sum

/-- Offset of embedding segment `i` inside the fused vector: the sum of the
embedding dimensions of the preceding tables. -/
def embOffset (m : DRSA) (i : ℕ) : ℕ :=
  ((m.embeddings.take i).map (fun e => e.embedding_dim)).sum

/-- A real vector, indexed by ℕ. -/
abbrev Vec := ℕ → ℝ

/-- Dropout masks and train/eval mode for one forward call.  PyTorch dropout
draws Bernoulli masks at train time; here they are explicit inputs:
`lstmMask b l t r` for the inter-layer LSTM dropout and `linMask b t j` for
the dropout after the linear head.  In evaluation mode both are ignored. -/
structure Mode where
  training : Bool
  lstmMask : ℕ → ℕ → ℕ → ℕ → ℚ
  linMask : ℕ → ℕ → ℕ → ℚ

noncomputable section

/-- The logistic sigmoid over ℝ, `nn.Sigmoid`. -/
def sigmoidR (z : ℝ) : ℝ := 1 / (1 + Real.exp (-z))

/-- Dot product of a rational weight row with a real vector over `n` coords. -/
def dotQ (v : ℕ → ℚ) (w : Vec) (n : ℕ) : ℝ :=
  ∑ j in Finset.range n, (v j : ℝ) * w j

/-- Inverted-dropout semantics of `nn.Dropout(p)` applied to a scalar:
identity in evaluation mode, `mask * v / (1 - p)` during training. -/
def dropoutApply (training : Bool) (p : ℚ) (mask : ℚ) (v : ℝ) : ℝ :=
  if training then (mask : ℝ) * v / (1 - (p : ℝ)) else v

/-- One LSTM cell step for layer `l` with input width `d`: the standard
gate equations (sigmoid input/forget/output gates, tanh cell candidate),
as configured by `nn.LSTM` in `DRSA.__init__`. -/
def lstmCell (L : LSTMWeights) (l d : ℕ) (u : Vec) (hc : Vec × Vec) : Vec × Vec :=
  let gi : Vec := fun r =>
    sigmoidR (dotQ (L.w_ih_i l r) u d + (L.b_ih_i l r : ℝ)
      + dotQ (L.w_hh_i l r) hc.1 L.hidden_size + (L.b_hh_i l r : ℝ))
  let gf : Vec := fun r =>
    sigmoidR (dotQ (L.w_ih_f l r) u d + (L.b_ih_f l r : ℝ)
      + dotQ (L.w_hh_f l r) hc.1 L.hidden_size + (L.b_hh_f l r : ℝ))
  let gg : Vec := fun r =>
    Real.tanh (dotQ (L.w_ih_g l r) u d + (L.b_ih_g l r : ℝ)
      + dotQ (L.w_hh_g l r) hc.1 L.hidden_size + (L.b_hh_g l r : ℝ))
  let go : Vec := fun r =>
    sigmoidR (dotQ (L.w_ih_o l r) u d + (L.b_ih_o l r : ℝ)
      + dotQ (L.w_hh_o l r) hc.1 L.hidden_size + (L.b_hh_o l r : ℝ))
  let c : Vec := fun r => gf r * hc.2 r + gi r * gg r
  (fun r => go r * Real.tanh (c r), c)

/-- The (hidden, cell) state of one LSTM layer after `t` steps, started from
an explicit initial state (PyTorch's optional `hx` argument). -/
def layerStatesFrom (L : LSTMWeights) (l d : ℕ) (init : Vec × Vec) (u : ℕ → Vec) :
    ℕ → Vec × Vec
  | 0 => init
  | t + 1 => lstmCell L l d (u t) (layerStatesFrom L l d init u t)

/-- The state sequence used by `forward`: the source calls
`self.lstm(all_features.float())` without a hidden argument, so PyTorch
initializes the hidden and cell state to zeros for every call. -/
def layerStates (L : LSTMWeights) (l d : ℕ) (u : ℕ → Vec) : ℕ → Vec × Vec :=
  layerStatesFrom L l d (fun _ => (0 : ℝ), fun _ => (0 : ℝ)) u

/-- Per-timestep output of stacked LSTM layer `l` on input sequence `u`.
Layer 0 reads the fused input (width `input_size`); layer `l+1` reads the
dropout-regularized output of layer `l` (width `hidden_size`), dropout being
applied between layers only, and only in training mode. -/
def stackOut (L : LSTMWeights) (training : Bool) (mask : ℕ → ℕ → ℕ → ℚ)
    (u : ℕ → Vec) : ℕ → ℕ → Vec
  | 0 => fun t => (layerStates L 0 L.input_size u (t + 1)).1
  | l + 1 => fun t =>
    (layerStates L (l + 1) L.hidden_size
      (fun s r => dropoutApply training L.dropout (mask l s r)
        (stackOut L training mask u l s r)) (t + 1)).1

/-- Final-layer LSTM output at each timestep, what `out, hidden =
self.lstm(...)` binds to `out` (the last layer's hidden sequence). -/
def lstmOutput (L : LSTMWeights) (training : Bool) (mask : ℕ → ℕ → ℕ → ℚ)
    (u : ℕ → Vec) (t : ℕ) : Vec :=
  stackOut L training mask u (L.num_layers - 1) t

/-- The numeric output of `forward` on a rank-3 input with trailing
dimension `F`: fuse, run the LSTM from zero state, apply the linear head,
dropout, and sigmoid — `out = self.sigmoid(self.linear_dropout(self.fc(out)))`. -/
def forwardNum (m : DRSA) (mode : Mode) (F : ℕ) (x : ℕ → ℕ → ℕ → ℚ) :
    ℕ → ℕ → ℕ → ℝ := fun b t j =>
  sigmoidR (dropoutApply mode.training m.linear_dropout (mode.linMask b t j)
    (dotQ (m.fc.weight j)
      (lstmOutput m.lstm mode.training (fun l s r => mode.lstmMask b l s r)
        (fun s i => (fusedQ m F x b s i : ℝ)) t)
      m.fc.in_features + (m.fc.bias j : ℝ)))

/-- The forward pass `DRSA.forward`.  The source validates nothing before
operating on `X`; failures are the PyTorch exceptions documented on
`FwdError`, detected in operation order by `forwardCheck3`.  On success the
output has shape (batch, sequence length, `output_size`). -/
def DRSA.forward (m : DRSA) (mode : Mode) (X : TensorQ) : Except FwdError TensorR :=
  (shapeBTF X.shape).elim (Except.error FwdError.rankError) (fun BTF =>
    (forwardCheck3 m BTF.1 BTF.2.1 BTF.2.2 X.entry).elim
      (Except.ok ⟨[BTF.1, BTF.2.1, m.fc.out_features], forwardNum m mode BTF.2.2 X.entry⟩)
      Except.error)

end

/-- Labels for the trainable parameter blocks of the model: each embedding
table's weight, the per-layer LSTM weight and bias blocks
(`weight_ih_l{l}`, `weight_hh_l{l}`, `bias_ih_l{l}`, `bias_hh_l{l}`), and the
linear head's weight and bias. -/
inductive Param where
  | embWeight : ℕ → Param
  | lstmWih : ℕ → Param
  | lstmWhh : ℕ → Param
  | lstmBih : ℕ → Param
  | lstmBhh : ℕ → Param
  | fcWeight : Param
  | fcBias : Param
deriving DecidableEq

/-- Parameter blocks of the `nn.LSTM` submodule, in PyTorch's flat order. -/
def lstmParamList (m : DRSA) : List Param :=
  (List.range m.lstm.num_layers).flatMap
    (fun l => [Param.lstmWih l, Param.lstmWhh l, Param.lstmBih l, Param.lstmBhh l])

/-- Parameter blocks of the embedding tables, in table order. -/
def embParamList (m : DRSA) : List Param :=
  (List.range m.embeddings.length).map Param.embWeight

/-- Parameter blocks of the `nn.Linear` head. -/
def fcParamList : List Param := [Param.fcWeight, Param.fcBias]

/-- The parameter blocks reachable through
`self.params_to_train = nn.ModuleList(self.embeddings + [self.lstm, self.fc])`. -/
def DRSA.params_to_train (m : DRSA) : List Param :=
  embParamList m ++ lstmParamList m ++ fcParamList

/-- Every trainable parameter block the model owns, read off the structure
fields: the `k` embedding tables, the recurrent-encoder weights, and the
linear emission-head weights (`nn.Sigmoid` and `nn.Dropout` are parameter-free). -/
def DRSA.trainableBlocks (m : DRSA) : List Param :=
  embParamList m ++ lstmParamList m ++ fcParamList

/-- The model's flat parameter collection, `model.parameters()` under
`nn.Module` semantics: parameters of registered child modules in attribute
assignment order (`self.lstm`, `self.fc`, `self.linear_dropout` with none,
`self.params_to_train`), with duplicates (the LSTM and linear blocks appear
both directly and inside the ModuleList) counted once.  The plain Python
list `self.embeddings` is NOT a registered submodule, so embedding tables
reach `parameters()` only through `params_to_train`. -/
def DRSA.parametersList (m : DRSA) : List Param :=
  (lstmParamList m ++ fcParamList ++ m.params_to_train).dedup

/-- What `model.parameters()` would collect if the `params_to_train` bundle
were omitted: only the implicitly registered `nn.Module` attributes
(`self.lstm`, `self.fc`); the plain-list embeddings would be invisible. -/
def DRSA.parametersNoBundle (m : DRSA) : List Param :=
  (lstmParamList m ++ fcParamList).dedup

/-- The invariants `DRSA.__init__` establishes between the stored
hyperparameters and the constructed submodules: the LSTM input width is
`sum(embedding dims) + n_features - len(embeddings)` (an ℤ quantity, and
non-negative since construction succeeded), and the LSTM / linear layers
were built from `hidden_dim`, `n_layers`. -/
def DRSA.WF (m : DRSA) : Prop :=
  (m.lstm.input_size : ℤ)
      = (embDimSum m : ℤ) + (m.n_features : ℤ) - (m.embeddings.length : ℤ)
    ∧ m.lstm.hidden_size = m.hidden_dim
    ∧ m.lstm.num_layers = m.n_layers
    ∧ m.fc.in_features = m.hidden_dim

instance (m : DRSA) : Decidable m.WF := by
  unfold DRSA.WF
  infer_instance

/-- The input's categorical columns hold in-vocabulary non-negative integer
codes: column `i` (for each embedding table `i`) holds, at every in-range
batch and timestep, an exact natural number below the table's vocabulary.
This is the validity notion the spec imposes on inputs. -/
def IntCodes (m : DRSA) (B T : ℕ) (x : ℕ → ℕ → ℕ → ℚ) : Prop :=
  ∀ i emb, m.embeddings.get? i = some emb → ∀ b < B, ∀ t < T,
    ∃ c : ℕ, c < emb.num_embeddings ∧ x b t i = (c : ℚ)

/-- The weaker condition the code actually tests: every categorical code,
truncated toward zero, lands inside its table's vocabulary. -/
def CodesOK (m : DRSA) (B T : ℕ) (x : ℕ → ℕ → ℕ → ℚ) : Prop :=
  ∀ i emb, m.embeddings.get? i = some emb → ∀ b < B, ∀ t < T,
    0 ≤ truncQ (x b t i) ∧ truncQ (x b t i) < (emb.num_embeddings : ℤ)

/-- `CodesOK` restricted to the categorical columns that actually exist in
an input of trailing dimension `F` (only those are ever read). -/
def CodesOKBelow (m : DRSA) (B T F : ℕ) (x : ℕ → ℕ → ℕ → ℚ) : Prop :=
  ∀ i emb, m.embeddings.get? i = some emb → i < F → ∀ b < B, ∀ t < T,
    0 ≤ truncQ (x b t i) ∧ truncQ (x b t i) < (emb.num_embeddings : ℤ)

/-- All-zero initial weights, for concrete instances. -/
def zeroW : RawWeights where
  w_ih_i := fun _ _ _ => 0
  w_ih_f := fun _ _ _ => 0
  w_ih_g := fun _ _ _ => 0
  w_ih_o := fun _ _ _ => 0
  w_hh_i := fun _ _ _ => 0
  w_hh_f := fun _ _ _ => 0
  w_hh_g := fun _ _ _ => 0
  w_hh_o := fun _ _ _ => 0
  b_ih_i := fun _ _ => 0
  b_ih_f := fun _ _ => 0
  b_ih_g := fun _ _ => 0
  b_ih_o := fun _ _ => 0
  b_hh_i := fun _ _ => 0
  b_hh_f := fun _ _ => 0
  b_hh_g := fun _ _ => 0
  b_hh_o := fun _ _ => 0
  fc_w := fun _ _ => 0
  fc_b := fun _ => 0

/-- A concrete embedding table: vocabulary 3, dimension 2, zero weights. -/
def embW : EmbTable := ⟨3, 2, fun _ _ => 0⟩

/-- A concrete well-formed model: 2 features, one categorical column with
the table `embW`, hidden dimension 2, one layer, scalar output.  The LSTM
input width is 2 + 2 - 1 = 3. -/
def mW : DRSA where
  n_features := 2
  hidden_dim := 2
  n_layers := 1
  embeddings := [embW]
  lstm :=
    { input_size := 3
      hidden_size := 2
      num_layers := 1
      dropout := 0
      w_ih_i := fun _ _ _ => 0, w_ih_f := fun _ _ _ => 0
      w_ih_g := fun _ _ _ => 0, w_ih_o := fun _ _ _ => 0
      w_hh_i := fun _ _ _ => 0, w_hh_f := fun _ _ _ => 0
      w_hh_g := fun _ _ _ => 0, w_hh_o := fun _ _ _ => 0
      b_ih_i := fun _ _ => 0, b_ih_f := fun _ _ => 0
      b_ih_g := fun _ _ => 0, b_ih_o := fun _ _ => 0
      b_hh_i := fun _ _ => 0, b_hh_f := fun _ _ => 0
      b_hh_g := fun _ _ => 0, b_hh_o := fun _ _ => 0 }
  fc := ⟨2, 1, fun _ _ => 0, fun _ => 0⟩
  linear_dropout := 0

/-- Evaluation mode with vacuous masks. -/
def modeEval : Mode := ⟨false, fun _ _ _ _ => 0, fun _ _ _ => 0⟩

/-- The all-zero entry function (categorical code 0 everywhere). -/
def xZero : ℕ → ℕ → ℕ → ℚ := fun _ _ _ => 0

/-- Concrete valid input for `mW`: a single batch element, single timestep. -/
def XW : TensorQ := ⟨[1, 1, 2], xZero⟩

/-- Concrete input whose categorical column holds the negative value -1/2,
which truncates toward zero to the in-vocabulary index 0. -/
def XNeg : TensorQ := ⟨[1, 1, 2], fun _ _ f => if f = 0 then mkRat (-1) 2 else 0⟩

/-- Concrete input with both a trailing-dimension mismatch for `mW`
(3 instead of 2) and an out-of-vocabulary code 5 in the categorical column. -/
def XBad : TensorQ := ⟨[1, 1, 3], fun _ _ f => if f = 0 then 5 else 0⟩

theorem truncQ_natCast (c : ℕ) : truncQ (c : ℚ) = (c : ℤ) := by
  unfold truncQ
  rw [if_pos (by positivity)]
  exact Int.floor_natCast c

theorem sigmoidR_mem_Ioo (z : ℝ) : sigmoidR z ∈ Set.Ioo (0 : ℝ) 1 := by
  unfold sigmoidR
  have hpos : 0 < 1 + Real.exp (-z) := by positivity
  constructor
  · exact div_pos one_pos hpos
  · rw [div_lt_one hpos]
    have := Real.exp_pos (-z)
    linarith

theorem firstErr_eq_none_iff (f : ℕ → Option FwdError) (n : ℕ) :
    firstErr f n = none ↔ ∀ i < n, f i = none := by
  induction n with
  | zero => simp [firstErr]
  | succ n ih =>
    rw [firstErr]
    cases h : firstErr f n with
    | some e =>
      constructor
      · intro hc; cases hc
      · intro hall
        have hnone : firstErr f n = none :=
          ih.mpr (fun i hi => hall i (Nat.lt_succ_of_lt hi))
        rw [h] at hnone; cases hnone
    | none =>
      constructor
      · intro hc i hi
        rcases Nat.lt_succ_iff_lt_or_eq.mp hi with hlt | heq
        · exact ih.mp h i hlt
        · rw [heq]; exact hc
      · intro hall; exact hall n (Nat.lt_succ_self n)

theorem firstErr_some_ex (f : ℕ → Option FwdError) (n : ℕ) (e : FwdError)
    (h : firstErr f n = some e) : ∃ i, i < n ∧ f i = some e := by
  induction n with
  | zero => cases h
  | succ n ih =>
    rw [firstErr] at h
    cases hn : firstErr f n with
    | some e2 =>
      rw [hn] at h
      obtain ⟨i, hi, hf⟩ := ih (hn.trans (by injection h with h2; rw [h2]))
      exact ⟨i, Nat.lt_succ_of_lt hi, hf⟩
    | none =>
      rw [hn] at h
      exact ⟨n, Nat.lt_succ_self n, h⟩

theorem firstErr_first (f : ℕ → Option FwdError) (n j : ℕ) (e : FwdError)
    (hj : j < n) (hnone : ∀ i < j, f i = none) (hje : f j = some e) :
    firstErr f n = some e := by
  induction n with
  | zero => cases hj
  | succ n ih =>
    rw [firstErr]
    rcases Nat.lt_succ_iff_lt_or_eq.mp hj with hlt | heq
    · rw [ih hlt]
    · rw [heq] at hnone hje
      rw [(firstErr_eq_none_iff f n).mpr hnone]
      exact hje

theorem hasOOV_eq_true_iff (B T : ℕ) (emb : EmbTable) (x : ℕ → ℕ → ℕ → ℚ) (i : ℕ) :
    hasOOV B T emb x i = true ↔ ∃ b, b < B ∧ ∃ t, t < T ∧
      (truncQ (x b t i) < 0 ∨ (emb.num_embeddings : ℤ) ≤ truncQ (x b t i)) := by
  unfold hasOOV oovB
  simp [List.any_eq_true, List.mem_range]

theorem hasOOV_eq_false_iff (B T : ℕ) (emb : EmbTable) (x : ℕ → ℕ → ℕ → ℚ) (i : ℕ) :
    hasOOV B T emb x i = false ↔ ∀ b < B, ∀ t < T,
      0 ≤ truncQ (x b t i) ∧ truncQ (x b t i) < (emb.num_embeddings : ℤ) := by
  rw [← Bool.not_eq_true, hasOOV_eq_true_iff]
  push_neg
  constructor
  · intro h b hb t ht
    exact h b hb t ht
  · intro h b hb t ht
    exact h b hb t ht

theorem embColErr_eq_none_iff (m : DRSA) (B T F : ℕ) (x : ℕ → ℕ → ℕ → ℚ)
    (i : ℕ) (emb : EmbTable) (hget : m.embeddings.get? i = some emb) :
    embColErr m B T F x i = none ↔
      i < F ∧ ∀ b < B, ∀ t < T,
        0 ≤ truncQ (x b t i) ∧ truncQ (x b t i) < (emb.num_embeddings : ℤ) := by
  unfold embColErr
  rw [hget]
  by_cases hF : F ≤ i
  · rw [if_pos hF]
    constructor
    · intro hc; cases hc
    · intro hc; omega
  · rw [if_neg hF]
    show (if hasOOV B T emb x i = true then some (FwdError.indexError i) else none) = none ↔
      i < F ∧ ∀ b < B, ∀ t < T,
        0 ≤ truncQ (x b t i) ∧ truncQ (x b t i) < (emb.num_embeddings : ℤ)
    cases hOOV : hasOOV B T emb x i with
    | true =>
      rw [if_pos rfl]
      constructor
      · intro hc; cases hc
      · intro hc
        have hfalse := (hasOOV_eq_false_iff B T emb x i).mpr hc.2
        rw [hOOV] at hfalse; cases hfalse
    | false =>
      rw [if_neg Bool.false_ne_true]
      constructor
      · intro _
        exact ⟨not_le.mp hF, (hasOOV_eq_false_iff B T emb x i).mp hOOV⟩
      · intro _; rfl

theorem forwardCheck3_eq_none_iff (m : DRSA) (B T F : ℕ) (x : ℕ → ℕ → ℕ → ℚ) :
    forwardCheck3 m B T F x = none ↔
      (∀ i < m.embeddings.length, embColErr m B T F x i = none)
        ∧ fusedDim m F = m.lstm.input_size := by
  unfold forwardCheck3
  cases h : firstErr (embColErr m B T F x) m.embeddings.length with
  | some e =>
    constructor
    · intro hc; cases hc
    · intro hc
      have hnone : firstErr (embColErr m B T F x) m.embeddings.length = none :=
        (firstErr_eq_none_iff _ _).mpr hc.1
      rw [h] at hnone; cases hnone
  | none =>
    constructor
    · intro hc
      refine ⟨(firstErr_eq_none_iff _ _).mp h, ?_⟩
      by_contra hne
      rw [if_neg hne] at hc; cases hc
    · intro hc
      rw [if_pos hc.2]

theorem exists_get?_of_lt {l : List EmbTable} {i : ℕ} (hi : i < l.length) :
    ∃ emb, l.get? i = some emb := by
  cases hg : l.get? i with
  | none => rw [List.get?_eq_none] at hg; omega
  | some emb => exact ⟨emb, rfl⟩

theorem check_none_of_valid (m : DRSA) (B T F : ℕ) (x : ℕ → ℕ → ℕ → ℚ)
    (hkF : m.embeddings.length ≤ F) (hc : CodesOKBelow m B T F x)
    (hdim : fusedDim m F = m.lstm.input_size) :
    forwardCheck3 m B T F x = none := by
  rw [forwardCheck3_eq_none_iff]
  refine ⟨fun i hi => ?_, hdim⟩
  obtain ⟨emb, hemb⟩ := exists_get?_of_lt hi
  rw [embColErr_eq_none_iff m B T F x i emb hemb]
  exact ⟨lt_of_lt_of_le hi hkF, hc i emb hemb (lt_of_lt_of_le hi hkF)⟩

theorem forward_ok_of_check (m : DRSA) (mode : Mode) (B T F : ℕ)
    (x : ℕ → ℕ → ℕ → ℚ) (h : forwardCheck3 m B T F x = none) :
    DRSA.forward m mode ⟨[B, T, F], x⟩
      = Except.ok ⟨[B, T, m.fc.out_features], forwardNum m mode F x⟩ := by
  show (forwardCheck3 m B T F x).elim
      (Except.ok (TensorR.mk [B, T, m.fc.out_features] (forwardNum m mode F x)))
      (Except.error : FwdError → Except FwdError TensorR)
    = Except.ok (TensorR.mk [B, T, m.fc.out_features] (forwardNum m mode F x))
  rw [h]
  rfl

theorem forward_err_of_check (m : DRSA) (mode : Mode) (B T F : ℕ)
    (x : ℕ → ℕ → ℕ → ℚ) (e : FwdError) (h : forwardCheck3 m B T F x = some e) :
    DRSA.forward m mode ⟨[B, T, F], x⟩ = Except.error e := by
  show (forwardCheck3 m B T F x).elim
      (Except.ok (TensorR.mk [B, T, m.fc.out_features] (forwardNum m mode F x)))
      (Except.error : FwdError → Except FwdError TensorR)
    = Except.error e
  rw [h]
  rfl

theorem forward_rank_err (m : DRSA) (mode : Mode) (X : TensorQ)
    (h : shapeBTF X.shape = none) :
    DRSA.forward m mode X = Except.error FwdError.rankError := by
  unfold DRSA.forward
  rw [h, Option.elim_none]

theorem shapeBTF_eq_none_iff (shape : List ℕ) :
    shapeBTF shape = none ↔ shape.length ≠ 3 := by
  match shape with
  | [] => simp [shapeBTF]
  | [a] => simp [shapeBTF]
  | [a, b] => simp [shapeBTF]
  | [a, b, c] => simp [shapeBTF]
  | a :: b :: c :: d :: rest => simp [shapeBTF, List.length]

theorem fusedDim_eq_input (m : DRSA) (hWF : m.WF)
    (hk : m.embeddings.length ≤ m.n_features) :
    fusedDim m m.n_features = m.lstm.input_size := by
  have h1 := hWF.1
  unfold fusedDim
  omega

theorem catPieces_offset_get (ps : List (ℕ × (ℕ → ℚ))) (i w : ℕ) (v : ℕ → ℚ)
    (d : ℕ) (hget : ps.get? i = some (w, v)) (hd : d < w) :
    catPieces ps (totalWidth (ps.take i) + d) = v d := by
  induction ps generalizing i with
  | nil => cases hget
  | cons p rest ih =>
    obtain ⟨pw, pv⟩ := p
    cases i with
    | zero =>
      injection hget with hpair
      injection hpair with hw hv
      subst hw; subst hv
      show catPieces ((pw, pv) :: rest) (totalWidth [] + d) = pv d
      unfold totalWidth catPieces
      rw [List.map_nil, List.sum_nil, Nat.zero_add, if_pos hd]
    | succ i =>
      show catPieces ((pw, pv) :: rest)
        (totalWidth ((pw, pv) :: rest.take i) + d) = v d
      unfold totalWidth catPieces
      rw [List.map_cons, List.sum_cons]
      rw [if_neg (by omega)]
      have harg : pw + ((rest.take i).map Prod.fst).sum + d - pw
          = totalWidth (rest.take i) + d := by
        unfold totalWidth; omega
      rw [harg]
      exact ih i hget

theorem catPieces_append_single (ps : List (ℕ × (ℕ → ℚ))) (W : ℕ) (v : ℕ → ℚ)
    (r : ℕ) (hr : r < W) :
    catPieces (ps ++ [(W, v)]) (totalWidth ps + r) = v r := by
  induction ps with
  | nil =>
    show catPieces [(W, v)] (totalWidth [] + r) = v r
    unfold totalWidth catPieces
    rw [List.map_nil, List.sum_nil, Nat.zero_add, if_pos hr]
  | cons p rest ih =>
    obtain ⟨pw, pv⟩ := p
    show catPieces ((pw, pv) :: (rest ++ [(W, v)])) (totalWidth ((pw, pv) :: rest) + r) = v r
    unfold totalWidth catPieces
    rw [List.map_cons, List.sum_cons]
    rw [if_neg (by omega)]
    have harg : pw + (rest.map Prod.fst).sum + r - pw = totalWidth rest + r := by
      unfold totalWidth; omega
    rw [harg]
    exact ih

theorem embPiecesFrom_length (x : ℕ → ℕ → ℕ → ℚ) (b t i0 : ℕ) (l : List EmbTable) :
    (embPiecesFrom x b t i0 l).length = l.length := by
  induction l generalizing i0 with
  | nil => rfl
  | cons e rest ih =>
    show (embPiecesFrom x b t (i0 + 1) rest).length + 1 = rest.length + 1
    rw [ih]

theorem totalWidth_embPiecesFrom (x : ℕ → ℕ → ℕ → ℚ) (b t i0 : ℕ) (l : List EmbTable) :
    totalWidth (embPiecesFrom x b t i0 l) = (l.map (fun e => e.embedding_dim)).sum := by
  induction l generalizing i0 with
  | nil => rfl
  | cons e rest ih =>
    show totalWidth ((e.embedding_dim, _) :: embPiecesFrom x b t (i0 + 1) rest)
      = e.embedding_dim + (rest.map (fun e => e.embedding_dim)).sum
    unfold totalWidth
    rw [List.map_cons, List.sum_cons]
    have := ih (i0 + 1)
    unfold totalWidth at this
    rw [this]

theorem embPiecesFrom_take (x : ℕ → ℕ → ℕ → ℚ) (b t i0 : ℕ) (l : List EmbTable) (i : ℕ) :
    (embPiecesFrom x b t i0 l).take i = embPiecesFrom x b t i0 (l.take i) := by
  induction l generalizing i0 i with
  | nil => simp [embPiecesFrom]
  | cons e rest ih =>
    cases i with
    | zero => rfl
    | succ i =>
      show (e.embedding_dim, _) :: (embPiecesFrom x b t (i0 + 1) rest).take i
        = (e.embedding_dim, _) :: embPiecesFrom x b t (i0 + 1) (rest.take i)
      rw [ih]

theorem embPiecesFrom_get? (x : ℕ → ℕ → ℕ → ℚ) (b t i0 : ℕ) (l : List EmbTable)
    (i : ℕ) (emb : EmbTable) (h : l.get? i = some emb) :
    (embPiecesFrom x b t i0 l).get? i
      = some (emb.embedding_dim, fun d => emb.weight (truncQ (x b t (i0 + i))).toNat d) := by
  induction l generalizing i0 i with
  | nil => cases h
  | cons e rest ih =>
    cases i with
    | zero =>
      injection h with h
      subst h
      rfl
    | succ i =>
      show (embPiecesFrom x b t (i0 + 1) rest).get? i = _
      have hrec := ih (i0 + 1) i h
      have harith : i0 + 1 + i = i0 + (i + 1) := by omega
      rw [harith] at hrec
      exact hrec

theorem fusedQ_emb_segment (m : DRSA) (F : ℕ) (x : ℕ → ℕ → ℕ → ℚ) (b t i : ℕ)
    (emb : EmbTable) (hget : m.embeddings.get? i = some emb)
    (d : ℕ) (hd : d < emb.embedding_dim) :
    fusedQ m F x b t (embOffset m i + d) = emb.weight (truncQ (x b t i)).toNat d := by
  have hlen : i < m.embeddings.length := by
    by_contra hcon
    rw [List.get?_eq_none.mpr (by omega)] at hget
    cases hget
  have hPlen : i < (embPiecesFrom x b t 0 m.embeddings).length := by
    rw [embPiecesFrom_length]; exact hlen
  have hget2 : (embPiecesFrom x b t 0 m.embeddings
        ++ [(F - m.embeddings.length, fun r => x b t (m.embeddings.length + r))]).get? i
      = some (emb.embedding_dim, fun d => emb.weight (truncQ (x b t (0 + i))).toNat d) := by
    rw [List.get?_append hPlen]
    exact embPiecesFrom_get? x b t 0 m.embeddings i emb hget
  have hmain := catPieces_offset_get _ i _ _ d hget2 hd
  rw [List.take_append_of_le_length (by omega), embPiecesFrom_take,
    totalWidth_embPiecesFrom] at hmain
  have hoff : ((m.embeddings.take i).map (fun e => e.embedding_dim)).sum = embOffset m i := rfl
  rw [hoff] at hmain
  have hzero : (0 : ℕ) + i = i := by omega
  rw [hzero] at hmain
  exact hmain

theorem fusedQ_cont_segment (m : DRSA) (F : ℕ) (x : ℕ → ℕ → ℕ → ℚ) (b t r : ℕ)
    (hr : r < F - m.embeddings.length) :
    fusedQ m F x b t (embDimSum m + r) = x b t (m.embeddings.length + r) := by
  have h := catPieces_append_single (embPiecesFrom x b t 0 m.embeddings)
    (F - m.embeddings.length) (fun r => x b t (m.embeddings.length + r)) r hr
  rw [totalWidth_embPiecesFrom] at h
  exact h

theorem catPieces_fusion_agree (x x' : ℕ → ℕ → ℕ → ℚ) (b t : ℕ) (l : List EmbTable)
    (i0 W : ℕ) (cont cont' : ℕ → ℚ)
    (hcols : ∀ i < l.length, x b t (i0 + i) = x' b t (i0 + i))
    (hcont : ∀ r < W, cont r = cont' r) :
    ∀ j < totalWidth (embPiecesFrom x b t i0 l) + W,
      catPieces (embPiecesFrom x b t i0 l ++ [(W, cont)]) j
        = catPieces (embPiecesFrom x' b t i0 l ++ [(W, cont')]) j := by
  induction l generalizing i0 with
  | nil =>
    intro j hj
    have hjW : j < W := by
      have hw : totalWidth (embPiecesFrom x b t i0 []) = 0 := rfl
      omega
    show catPieces [(W, cont)] j = catPieces [(W, cont')] j
    unfold catPieces
    rw [if_pos hjW, if_pos hjW]
    exact hcont j hjW
  | cons e rest ih =>
    intro j hj
    have hw : totalWidth (embPiecesFrom x b t i0 (e :: rest))
        = e.embedding_dim + totalWidth (embPiecesFrom x b t (i0 + 1) rest) := by
      show totalWidth ((e.embedding_dim, _) :: embPiecesFrom x b t (i0 + 1) rest) = _
      unfold totalWidth
      rw [List.map_cons, List.sum_cons]
    show catPieces ((e.embedding_dim, fun d => e.weight (truncQ (x b t i0)).toNat d)
        :: (embPiecesFrom x b t (i0 + 1) rest ++ [(W, cont)])) j
      = catPieces ((e.embedding_dim, fun d => e.weight (truncQ (x' b t i0)).toNat d)
        :: (embPiecesFrom x' b t (i0 + 1) rest ++ [(W, cont')])) j
    unfold catPieces
    by_cases hjd : j < e.embedding_dim
    · rw [if_pos hjd, if_pos hjd]
      have h0 := hcols 0 (by simp)
      rw [Nat.add_zero] at h0
      rw [h0]
    · rw [if_neg hjd, if_neg hjd]
      have hwidth : totalWidth (embPiecesFrom x' b t (i0 + 1) rest)
          = totalWidth (embPiecesFrom x b t (i0 + 1) rest) := by
        rw [totalWidth_embPiecesFrom, totalWidth_embPiecesFrom]
      exact ih (i0 + 1)
        (fun i hi => by
          have hc := hcols (i + 1) (by simpa using Nat.succ_lt_succ hi)
          have harith : i0 + (i + 1) = i0 + 1 + i := by omega
          rw [harith] at hc
          exact hc)
        (j - e.embedding_dim) (by omega)

theorem fusedQ_agree (m : DRSA) (F : ℕ) (x x' : ℕ → ℕ → ℕ → ℚ) (b t : ℕ)
    (hkF : m.embeddings.length ≤ F)
    (hag : ∀ f < F, x b t f = x' b t f) :
    ∀ j < fusedDim m F, fusedQ m F x b t j = fusedQ m F x' b t j := by
  intro j hj
  unfold fusedQ
  apply catPieces_fusion_agree x x' b t m.embeddings 0 (F - m.embeddings.length)
  · intro i hi
    exact hag (0 + i) (by omega)
  · intro r hr
    exact hag (m.embeddings.length + r) (by omega)
  · rw [totalWidth_embPiecesFrom]
    exact hj

theorem dotQ_congr (v : ℕ → ℚ) (w w' : Vec) (n : ℕ) (h : ∀ j < n, w j = w' j) :
    dotQ v w n = dotQ v w' n := by
  unfold dotQ
  exact Finset.sum_congr rfl (fun j hj => by rw [h j (Finset.mem_range.mp hj)])

theorem lstmCell_congr (L : LSTMWeights) (l d : ℕ) (u u' : Vec) (hc : Vec × Vec)
    (hu : ∀ j < d, u j = u' j) : lstmCell L l d u hc = lstmCell L l d u' hc := by
  unfold lstmCell
  have hi : ∀ w : ℕ → ℕ → ℕ → ℚ, ∀ r, dotQ (w l r) u d = dotQ (w l r) u' d :=
    fun w r => dotQ_congr (w l r) u u' d hu
  simp only [hi L.w_ih_i, hi L.w_ih_f, hi L.w_ih_g, hi L.w_ih_o]

theorem layerStates_congr (L : LSTMWeights) (l d : ℕ) (u u' : ℕ → Vec) (n : ℕ)
    (h : ∀ s < n, ∀ j < d, u s j = u' s j) :
    layerStates L l d u n = layerStates L l d u' n := by
  induction n with
  | zero => rfl
  | succ n ih =>
    show lstmCell L l d (u n) (layerStates L l d u n)
      = lstmCell L l d (u' n) (layerStates L l d u' n)
    rw [ih (fun s hs j hj => h s (Nat.lt_succ_of_lt hs) j hj)]
    exact lstmCell_congr L l d (u n) (u' n) _ (fun j hj => h n (Nat.lt_succ_self n) j hj)

theorem stackOut_agree (L : LSTMWeights) (tr : Bool) (mask : ℕ → ℕ → ℕ → ℚ)
    (u u' : ℕ → Vec) (l t : ℕ)
    (h : ∀ s ≤ t, ∀ j < L.input_size, u s j = u' s j) :
    stackOut L tr mask u l t = stackOut L tr mask u' l t := by
  induction l generalizing t with
  | zero =>
    show (layerStates L 0 L.input_size u (t + 1)).1
      = (layerStates L 0 L.input_size u' (t + 1)).1
    rw [layerStates_congr L 0 L.input_size u u' (t + 1)
      (fun s hs j hj => h s (Nat.lt_succ_iff.mp hs) j hj)]
  | succ l ih =>
    show (layerStates L (l + 1) L.hidden_size
        (fun s r => dropoutApply tr L.dropout (mask l s r) (stackOut L tr mask u l s r))
        (t + 1)).1
      = (layerStates L (l + 1) L.hidden_size
        (fun s r => dropoutApply tr L.dropout (mask l s r) (stackOut L tr mask u' l s r))
        (t + 1)).1
    rw [layerStates_congr L (l + 1) L.hidden_size _ _ (t + 1)
      (fun s hs j _ => by
        rw [ih s (fun s2 hs2 j2 hj2 =>
          h s2 (le_trans hs2 (Nat.lt_succ_iff.mp hs)) j2 hj2)])]

theorem stackOut_evalMask (L : LSTMWeights) (mask mask' : ℕ → ℕ → ℕ → ℚ)
    (u : ℕ → Vec) (l t : ℕ) :
    stackOut L false mask u l t = stackOut L false mask' u l t := by
  induction l generalizing t with
  | zero => rfl
  | succ l ih =>
    show (layerStates L (l + 1) L.hidden_size
        (fun s r => dropoutApply false L.dropout (mask l s r) (stackOut L false mask u l s r))
        (t + 1)).1
      = (layerStates L (l + 1) L.hidden_size
        (fun s r => dropoutApply false L.dropout (mask' l s r) (stackOut L false mask' u l s r))
        (t + 1)).1
    have harg : (fun s r => dropoutApply false L.dropout (mask l s r)
          (stackOut L false mask u l s r))
        = fun s r => dropoutApply false L.dropout (mask' l s r)
          (stackOut L false mask' u l s r) := by
      funext s r
      unfold dropoutApply
      rw [if_neg Bool.false_ne_true, if_neg Bool.false_ne_true, ih s]
    rw [harg]

theorem forwardNum_mode_agree (m : DRSA) (mode : Mode) (F : ℕ)
    (x x' : ℕ → ℕ → ℕ → ℚ) (hkF : m.embeddings.length ≤ F)
    (hdim : fusedDim m F = m.lstm.input_size) (b t j : ℕ)
    (hag : ∀ s ≤ t, ∀ f < F, x b s f = x' b s f) :
    forwardNum m mode F x b t j = forwardNum m mode F x' b t j := by
  have hl : lstmOutput m.lstm mode.training (fun l s r => mode.lstmMask b l s r)
        (fun s i => (fusedQ m F x b s i : ℝ)) t
      = lstmOutput m.lstm mode.training (fun l s r => mode.lstmMask b l s r)
        (fun s i => (fusedQ m F x' b s i : ℝ)) t := by
    unfold lstmOutput
    apply stackOut_agree
    intro s hs jj hjj
    have hfa := fusedQ_agree m F x x' b s hkF (fun f hf => hag s hs f hf) jj
      (by rw [hdim]; exact hjj)
    exact_mod_cast hfa
  show sigmoidR (dropoutApply mode.training m.linear_dropout (mode.linMask b t j)
      (dotQ (m.fc.weight j)
        (lstmOutput m.lstm mode.training (fun l s r => mode.lstmMask b l s r)
          (fun s i => (fusedQ m F x b s i : ℝ)) t)
        m.fc.in_features + (m.fc.bias j : ℝ)))
    = _
  rw [hl]
  rfl

theorem forwardNum_eval_agree (m : DRSA) (mode mode' : Mode) (F : ℕ)
    (x x' : ℕ → ℕ → ℕ → ℚ)
    (htr : mode.training = false) (htr' : mode'.training = false)
    (hkF : m.embeddings.length ≤ F)
    (hdim : fusedDim m F = m.lstm.input_size) (b t j : ℕ)
    (hag : ∀ s ≤ t, ∀ f < F, x b s f = x' b s f) :
    forwardNum m mode F x b t j = forwardNum m mode' F x' b t j := by
  have hl : lstmOutput m.lstm false (fun l s r => mode.lstmMask b l s r)
        (fun s i => (fusedQ m F x b s i : ℝ)) t
      = lstmOutput m.lstm false (fun l s r => mode'.lstmMask b l s r)
        (fun s i => (fusedQ m F x' b s i : ℝ)) t := by
    unfold lstmOutput
    rw [stackOut_evalMask m.lstm (fun l s r => mode.lstmMask b l s r)
      (fun l s r => mode'.lstmMask b l s r)]
    apply stackOut_agree
    intro s hs jj hjj
    have hfa := fusedQ_agree m F x x' b s hkF (fun f hf => hag s hs f hf) jj
      (by rw [hdim]; exact hjj)
    exact_mod_cast hfa
  show sigmoidR (dropoutApply mode.training m.linear_dropout (mode.linMask b t j)
      (dotQ (m.fc.weight j)
        (lstmOutput m.lstm mode.training (fun l s r => mode.lstmMask b l s r)
          (fun s i => (fusedQ m F x b s i : ℝ)) t)
        m.fc.in_features + (m.fc.bias j : ℝ)))
    = sigmoidR (dropoutApply mode'.training m.linear_dropout (mode'.linMask b t j)
      (dotQ (m.fc.weight j)
        (lstmOutput m.lstm mode'.training (fun l s r => mode'.lstmMask b l s r)
          (fun s i => (fusedQ m F x' b s i : ℝ)) t)
        m.fc.in_features + (m.fc.bias j : ℝ)))
  rw [htr, htr', hl]
  unfold dropoutApply
  rw [if_neg Bool.false_ne_true, if_neg Bool.false_ne_true]

theorem intCodes_codesOK (m : DRSA) (B T : ℕ) (x : ℕ → ℕ → ℕ → ℚ)
    (h : IntCodes m B T x) : CodesOK m B T x := by
  intro i emb hget b hb t ht
  obtain ⟨c, hcv, hx⟩ := h i emb hget b hb t ht
  rw [hx, truncQ_natCast]
  exact ⟨Int.natCast_nonneg c, by exact_mod_cast hcv⟩

theorem codesOK_below (m : DRSA) (B T F : ℕ) (x : ℕ → ℕ → ℕ → ℚ)
    (h : CodesOK m B T x) : CodesOKBelow m B T F x :=
  fun i emb hget _ => h i emb hget

theorem drsaInit_WF (nf hd nl : ℕ) (embs : List EmbTable) (os : ℕ)
    (ld pd : ℚ) (w : RawWeights) (m : DRSA)
    (h : drsaInit nf hd nl embs os ld pd w = Except.ok m) : m.WF := by
  unfold drsaInit at h
  split_ifs at h with h1 h2 h3
  injection h with h
  subst h
  refine ⟨?_, rfl, rfl, rfl⟩
  show (((encWidth nf embs).toNat : ℤ)) = _
  rw [Int.toNat_of_nonneg (not_lt.mp h2)]
  simp [encWidth, embDimSum]
  rfl

theorem forward_ok_valid (m : DRSA) (mode : Mode) (B T : ℕ) (x : ℕ → ℕ → ℕ → ℚ)
    (hWF : m.WF) (hk : m.embeddings.length ≤ m.n_features) (hc : CodesOK m B T x) :
    DRSA.forward m mode ⟨[B, T, m.n_features], x⟩
      = Except.ok ⟨[B, T, m.fc.out_features], forwardNum m mode m.n_features x⟩ :=
  forward_ok_of_check m mode B T m.n_features x
    (check_none_of_valid m B T m.n_features x hk
      (codesOK_below m B T m.n_features x hc) (fusedDim_eq_input m hWF hk))

theorem xZero_intCodes : IntCodes mW 1 1 xZero := by
  intro i emb hget b _ t _
  match i, hget with
  | 0, hget =>
    have he : embW = emb := by injection hget
    refine ⟨0, ?_, by norm_num [xZero]⟩
    rw [← he]
    decide
  | i + 1, hget => simp [mW] at hget

/-- C1: for a well-formed model with valid hyperparameters (positive
n_features, hidden_dim, n_layers and output size, and at most n_features
embedding tables), forward on a (B, T, n_features) input whose categorical
columns hold in-vocabulary non-negative integer codes succeeds with an
output of shape (B, T, output_size), every in-range entry of which lies
strictly inside (0, 1) (exact-real semantics; floating-point saturation at
the boundaries is the source's counterpart of the open bounds). -/
theorem C1_forward_shape_and_range (m : DRSA) (mode : Mode) (B T : ℕ)
    (x : ℕ → ℕ → ℕ → ℚ) (hWF : m.WF)
    (hnf : 0 < m.n_features) (hhd : 0 < m.hidden_dim) (hnl : 0 < m.n_layers)
    (hos : 0 < m.fc.out_features) (hk : m.embeddings.length ≤ m.n_features)
    (hcodes : IntCodes m B T x) :
    ∃ out : TensorR,
      DRSA.forward m mode ⟨[B, T, m.n_features], x⟩ = Except.ok out
        ∧ out.shape = [B, T, m.fc.out_features]
        ∧ ∀ b < B, ∀ t < T, ∀ j < m.fc.out_features,
            out.entry b t j ∈ Set.Ioo (0 : ℝ) 1 := by
  refine ⟨_, forward_ok_valid m mode B T x hWF hk (intCodes_codesOK m B T x hcodes),
    rfl, ?_⟩
  intro b _ t _ j _
  exact sigmoidR_mem_Ioo _

theorem C1_forward_shape_and_range_witness :
    mW.WF ∧ 0 < mW.n_features ∧ 0 < mW.hidden_dim ∧ 0 < mW.n_layers
      ∧ 0 < mW.fc.out_features ∧ mW.embeddings.length ≤ mW.n_features
      ∧ IntCodes mW 1 1 xZero
      ∧ ∃ out : TensorR,
          DRSA.forward mW modeEval ⟨[1, 1, mW.n_features], xZero⟩ = Except.ok out
            ∧ out.shape = [1, 1, mW.fc.out_features]
            ∧ ∀ b < 1, ∀ t < 1, ∀ j < mW.fc.out_features,
                out.entry b t j ∈ Set.Ioo (0 : ℝ) 1 :=
  ⟨by decide, by decide, by decide, by decide, by decide, by decide, xZero_intCodes,
    C1_forward_shape_and_range mW modeEval 1 1 xZero (by decide) (by decide)
      (by decide) (by decide) (by decide) (by decide) xZero_intCodes⟩

/-- C4: the fused per-timestep vector handed to the recurrent encoder is the
concatenation, in embedding-table order, of the embedding lookups (table i
applied to column i truncated toward zero) followed by the continuous
columns X[:, :, k:]; its width is the sum of the embedding dimensions plus
(F - k); and for k = 0 the fusion is exactly the continuous block (a type
coercion only). -/
theorem C4_fusion_concat (m : DRSA) (F : ℕ) (x : ℕ → ℕ → ℕ → ℚ) (b t : ℕ) :
    (∀ i emb, m.embeddings.get? i = some emb → ∀ d < emb.embedding_dim,
        fusedQ m F x b t (embOffset m i + d)
          = emb.weight (truncQ (x b t i)).toNat d)
      ∧ (∀ r < F - m.embeddings.length,
          fusedQ m F x b t (embDimSum m + r) = x b t (m.embeddings.length + r))
      ∧ fusedDim m F = embDimSum m + (F - m.embeddings.length)
      ∧ (m.embeddings.length = 0 → ∀ r < F, fusedQ m F x b t r = x b t r) := by
  refine ⟨fun i emb hget d hd => fusedQ_emb_segment m F x b t i emb hget d hd,
    fun r hr => fusedQ_cont_segment m F x b t r hr, rfl, ?_⟩
  intro hk0 r hr
  have hnil : m.embeddings = [] := List.length_eq_zero.mp hk0
  have hsum : embDimSum m = 0 := by unfold embDimSum; rw [hnil]; rfl
  have h := fusedQ_cont_segment m F x b t r (by omega)
  rw [hsum, Nat.zero_add, hk0, Nat.zero_add] at h
  exact h

theorem C4_fusion_concat_witness :
    fusedQ mW 2 xZero 0 0 (embOffset mW 0 + 1) = embW.weight 0 1
      ∧ fusedQ mW 2 xZero 0 0 (embDimSum mW + 0) = xZero 0 0 (1 + 0) := by
  have h := C4_fusion_concat mW 2 xZero 0 0
  refine ⟨?_, h.2.1 0 (by decide)⟩
  have h1 := h.1 0 embW rfl 1 (by decide)
  have htr : (truncQ (xZero 0 0 0)).toNat = 0 := by decide
  rw [htr] at h1
  exact h1

/-- C10: the encoder input width fixed at construction is derived from the
very same embedding list that fusion uses, so on a correctly-shaped input
with in-vocabulary integer codes the forward pass can never fail with the
internal LSTM input-size mismatch; when additionally k does not exceed
n_features, the fused width equals the encoder width exactly and forward
succeeds outright. -/
theorem C10_no_internal_dim_mismatch (m : DRSA) (mode : Mode) (B T : ℕ)
    (x : ℕ → ℕ → ℕ → ℚ) (hWF : m.WF) (hcodes : IntCodes m B T x) :
    (∀ e : FwdError,
        DRSA.forward m mode ⟨[B, T, m.n_features], x⟩ = Except.error e
          → e ≠ FwdError.sizeError)
      ∧ (m.embeddings.length ≤ m.n_features →
          fusedDim m m.n_features = m.lstm.input_size
            ∧ exceptOk (DRSA.forward m mode ⟨[B, T, m.n_features], x⟩) = true) := by
  constructor
  · intro e he
    by_cases hk : m.embeddings.length ≤ m.n_features
    · rw [forward_ok_valid m mode B T x hWF hk (intCodes_codesOK m B T x hcodes)] at he
      cases he
    · push_neg at hk
      have hcodesOK := intCodes_codesOK m B T x hcodes
      have hcheck : forwardCheck3 m B T m.n_features x
          = some (FwdError.sliceError m.n_features) := by
        unfold forwardCheck3
        rw [firstErr_first (embColErr m B T m.n_features x) m.embeddings.length
          m.n_features (FwdError.sliceError m.n_features) hk
          (fun i hi => by
            obtain ⟨emb, hget⟩ := exists_get?_of_lt (lt_trans hi hk)
            rw [embColErr_eq_none_iff m B T m.n_features x i emb hget]
            exact ⟨hi, hcodesOK i emb hget⟩)
          (by unfold embColErr; rw [if_pos (le_refl m.n_features)])]
      rw [forward_err_of_check m mode B T m.n_features x _ hcheck] at he
      injection he with he
      rw [← he]
      intro hcon
      cases hcon
  · intro hk
    refine ⟨fusedDim_eq_input m hWF hk, ?_⟩
    rw [forward_ok_valid m mode B T x hWF hk (intCodes_codesOK m B T x hcodes)]
    rfl

theorem C10_no_internal_dim_mismatch_witness :
    mW.WF ∧ IntCodes mW 1 1 xZero
      ∧ ((∀ e : FwdError,
            DRSA.forward mW modeEval ⟨[1, 1, mW.n_features], xZero⟩ = Except.error e
              → e ≠ FwdError.sizeError)
          ∧ (mW.embeddings.length ≤ mW.n_features →
              fusedDim mW mW.n_features = mW.lstm.input_size
                ∧ exceptOk (DRSA.forward mW modeEval
                    ⟨[1, 1, mW.n_features], xZero⟩) = true)) :=
  ⟨by decide, xZero_intCodes,
    C10_no_internal_dim_mismatch mW modeEval 1 1 xZero (by decide) xZero_intCodes⟩

/-- C8: the recurrent state used by every forward call starts as the zero
state (the source passes no hidden state to the LSTM, which therefore
zero-initializes both the hidden and the cell component), and no state
persists across calls: the state sequence is rebuilt from the zero initial
state each time, and the result of a forward call after any sequence of
prior calls is the same pure function of the model and that call's input. -/
theorem C8_zero_init_stateless (m : DRSA) (mode : Mode) (prior : List TensorQ)
    (X : TensorQ) :
    (∀ L l d u, layerStates L l d u 0 = (fun _ => (0 : ℝ), fun _ => (0 : ℝ)))
      ∧ (∀ L l d u n, layerStates L l d u n
          = layerStatesFrom L l d (fun _ => (0 : ℝ), fun _ => (0 : ℝ)) u n)
      ∧ ((prior ++ [X]).map (DRSA.forward m mode)).getLast?
          = some (DRSA.forward m mode X) := by
  refine ⟨fun L l d u => rfl, fun L l d u n => rfl, ?_⟩
  rw [List.map_append]
  rw [List.getLast?_append]
  rfl

/-- C9: the model owns all trainable parameter blocks, and its flat
parameter collection (nn.Module registration, including the explicit
params_to_train bundle) contains exactly those blocks; without the bundle
the plain-list embedding tables would be missed by implicit registration. -/
theorem C9_params_exposed (m : DRSA) :
    (∀ p : Param, p ∈ m.parametersList ↔ p ∈ m.trainableBlocks)
      ∧ ∀ i : ℕ, Param.embWeight i ∉ m.parametersNoBundle := by
  constructor
  · intro p
    rw [DRSA.parametersList, List.mem_dedup]
    unfold DRSA.params_to_train DRSA.trainableBlocks
    simp only [List.mem_append]
    tauto
  · intro i
    rw [DRSA.parametersNoBundle, List.mem_dedup]
    simp only [List.mem_append, lstmParamList, fcParamList, List.mem_flatMap,
      List.mem_range, List.mem_cons, List.mem_singleton, List.not_mem_nil]
    push_neg
    constructor
    · intro l _
      refine ⟨by simp, by simp, by simp, by simp, by simp⟩
    · exact ⟨by simp, by simp⟩

theorem forward_error_iff_check (m : DRSA) (mode : Mode) (B T F : ℕ)
    (x : ℕ → ℕ → ℕ → ℚ) (e : FwdError) :
    DRSA.forward m mode ⟨[B, T, F], x⟩ = Except.error e
      ↔ forwardCheck3 m B T F x = some e := by
  constructor
  · intro h
    cases hc : forwardCheck3 m B T F x with
    | none =>
      rw [forward_ok_of_check m mode B T F x hc] at h
      cases h
    | some e2 =>
      rw [forward_err_of_check m mode B T F x e2 hc] at h
      injection h with h
      rw [← h]
  · exact forward_err_of_check m mode B T F x e

theorem forwardCheck3_of_firstErr (m : DRSA) (B T F : ℕ) (x : ℕ → ℕ → ℕ → ℚ)
    (e : FwdError)
    (h : firstErr (embColErr m B T F x) m.embeddings.length = some e) :
    forwardCheck3 m B T F x = some e := by
  unfold forwardCheck3
  rw [h]

theorem forwardCheck3_some_cases (m : DRSA) (B T F : ℕ) (x : ℕ → ℕ → ℕ → ℚ)
    (e : FwdError) (h : forwardCheck3 m B T F x = some e) :
    firstErr (embColErr m B T F x) m.embeddings.length = some e
      ∨ e = FwdError.sizeError := by
  unfold forwardCheck3 at h
  cases hf : firstErr (embColErr m B T F x) m.embeddings.length with
  | some e2 =>
    rw [hf] at h
    left
    injection h with h
    rw [← h]
  | none =>
    rw [hf] at h
    right
    by_cases hd : fusedDim m F = m.lstm.input_size
    · rw [if_pos hd] at h; cases h
    · rw [if_neg hd] at h
      injection h with h
      exact h.symm

theorem shapeBTF_eq_some (shape : List ℕ) (B T F : ℕ)
    (h : shapeBTF shape = some (B, T, F)) : shape = [B, T, F] := by
  match shape with
  | [a, b, c] =>
    simp only [shapeBTF, Option.some.injEq, Prod.mk.injEq] at h
    obtain ⟨h1, h2, h3⟩ := h
    rw [h1, h2, h3]
  | [] => cases h
  | [a] => cases h
  | [a, b] => cases h
  | a :: b :: c :: d :: rest => cases h

theorem firstErr_congr (f g : ℕ → Option FwdError) (n : ℕ)
    (h : ∀ i < n, f i = g i) : firstErr f n = firstErr g n := by
  induction n with
  | zero => rfl
  | succ n ih =>
    rw [firstErr, firstErr]
    rw [ih (fun i hi => h i (Nat.lt_succ_of_lt hi)), h n (Nat.lt_succ_self n)]

theorem embColErr_congr (m : DRSA) (B T F : ℕ) (x x' : ℕ → ℕ → ℕ → ℚ) (i : ℕ)
    (hag : ∀ b < B, ∀ t < T, ∀ f < F, x b t f = x' b t f) :
    embColErr m B T F x i = embColErr m B T F x' i := by
  unfold embColErr
  by_cases hF : F ≤ i
  · rw [if_pos hF, if_pos hF]
  · rw [if_neg hF, if_neg hF]
    cases hget : m.embeddings.get? i with
    | none => rfl
    | some emb =>
      show (if hasOOV B T emb x i = true then some (FwdError.indexError i) else none)
        = (if hasOOV B T emb x' i = true then some (FwdError.indexError i) else none)
      have hOOV : hasOOV B T emb x i = hasOOV B T emb x' i := by
        cases hx : hasOOV B T emb x' i with
        | false =>
          rw [hasOOV_eq_false_iff]
          intro b hb t ht
          rw [hag b hb t ht i (by omega)]
          exact (hasOOV_eq_false_iff B T emb x' i).mp hx b hb t ht
        | true =>
          rw [hasOOV_eq_true_iff]
          obtain ⟨b, hb, t, ht, hv⟩ := (hasOOV_eq_true_iff B T emb x' i).mp hx
          refine ⟨b, hb, t, ht, ?_⟩
          rw [hag b hb t ht i (by omega)]
          exact hv
      rw [hOOV]

theorem forwardCheck3_congr (m : DRSA) (B T F : ℕ) (x x' : ℕ → ℕ → ℕ → ℚ)
    (hag : ∀ b < B, ∀ t < T, ∀ f < F, x b t f = x' b t f) :
    forwardCheck3 m B T F x = forwardCheck3 m B T F x' := by
  unfold forwardCheck3
  rw [firstErr_congr (embColErr m B T F x) (embColErr m B T F x')
    m.embeddings.length (fun i _ => embColErr_congr m B T F x x' i hag)]

/-- C2 counterexample: constructing with two embedding tables (k = 2) while
declaring n_features = 1 — mutually inconsistent dimensions with
k > n_features — completes silently; no error is raised at construction. -/
theorem C2_counterexample :
    ([embW, embW] : List EmbTable).length > 1
      ∧ exceptOk (drsaInit 1 1 1 [embW, embW] 1 0 0 zeroW) = true := by
  constructor
  · decide
  · rfl

/-- C2 amended: construction performs no dimension-consistency validation of
its own; it fails only where PyTorch itself raises — a dropout probability
outside [0, 1] or a negative derived encoder input width.  In particular,
k > n_features (and the spec's 16-versus-17 scenario) constructs
successfully whenever the derived width is non-negative. -/
theorem C2_amended_init_no_validation (nf hd nl : ℕ) (embs : List EmbTable)
    (os : ℕ) (ld pd : ℚ) (w : RawWeights) :
    exceptOk (drsaInit nf hd nl embs os ld pd w) = true
      ↔ ¬(ld < 0 ∨ 1 < ld) ∧ 0 ≤ encWidth nf embs ∧ ¬(pd < 0 ∨ 1 < pd) := by
  unfold drsaInit
  split_ifs with h1 h2 h3
  · exact iff_of_false (by simp [exceptOk]) (fun hc => hc.1 h1)
  · exact iff_of_false (by simp [exceptOk]) (fun hc => absurd hc.2.1 (not_le.mpr h2))
  · exact iff_of_false (by simp [exceptOk]) (fun hc => hc.2.2 h3)
  · exact iff_of_true rfl ⟨h1, not_lt.mp h2, h3⟩

/-- C3 counterexample: on an input whose trailing dimension (3) differs from
the configured n_features (2) but whose categorical column holds the
out-of-vocabulary code 5, forward raises the vocabulary IndexError, not a
shape-category error — so a shape mismatch does not always surface as a
ShapeError. -/
theorem C3_counterexample :
    XBad.shape ≠ [1, 1, mW.n_features]
      ∧ DRSA.forward mW modeEval XBad = Except.error (FwdError.indexError 0)
      ∧ (FwdError.indexError 0).isShapeError = false := by
  refine ⟨by decide, ?_, rfl⟩
  rfl

/-- C3 amended: restricted to models whose table count does not exceed
n_features and to inputs whose existing categorical columns hold
in-vocabulary codes (otherwise a vocabulary IndexError can preempt the shape
failure, as the counterexample shows), forward fails with a shape-category
error exactly when the input rank is not 3 or the trailing dimension differs
from n_features; being Except-valued, forward never returns partial output. -/
theorem C3_amended_shape_error_iff (m : DRSA) (mode : Mode) (X : TensorQ)
    (hWF : m.WF) (hk : m.embeddings.length ≤ m.n_features)
    (hc : ∀ B T F, X.shape = [B, T, F] → CodesOKBelow m B T F X.entry) :
    (∃ e, DRSA.forward m mode X = Except.error e ∧ e.isShapeError = true)
      ↔ ¬∃ B T, X.shape = [B, T, m.n_features] := by
  obtain ⟨shape, xe⟩ := X
  cases hbtf : shapeBTF shape with
  | none =>
    apply iff_of_true
    · exact ⟨FwdError.rankError, forward_rank_err m mode ⟨shape, xe⟩ hbtf, rfl⟩
    · rintro ⟨B, T, hsh⟩
      have hlen := (shapeBTF_eq_none_iff shape).mp hbtf
      have hsh2 : shape = [B, T, m.n_features] := hsh
      rw [hsh2] at hlen
      exact hlen rfl
  | some BTF =>
    obtain ⟨B, T, F⟩ := BTF
    have hsh : shape = [B, T, F] := shapeBTF_eq_some shape B T F hbtf
    subst hsh
    have hcB : CodesOKBelow m B T F xe := hc B T F rfl
    by_cases hF : F = m.n_features
    · subst hF
      apply iff_of_false
      · rintro ⟨e, he, _⟩
        rw [forward_ok_of_check m mode B T m.n_features xe
          (check_none_of_valid m B T m.n_features xe hk hcB
            (fusedDim_eq_input m hWF hk))] at he
        cases he
      · intro hcon
        exact hcon ⟨B, T, rfl⟩
    · apply iff_of_true
      · by_cases hkF : m.embeddings.length ≤ F
        · refine ⟨FwdError.sizeError, ?_, rfl⟩
          rw [forward_error_iff_check]
          unfold forwardCheck3
          rw [(firstErr_eq_none_iff _ _).mpr (fun i hi => by
            obtain ⟨emb, hget⟩ := exists_get?_of_lt hi
            rw [embColErr_eq_none_iff m B T F xe i emb hget]
            exact ⟨lt_of_lt_of_le hi hkF, hcB i emb hget (lt_of_lt_of_le hi hkF)⟩)]
          rw [if_neg (fun hdim => hF ?_)]
          have h1 := hWF.1
          unfold fusedDim at hdim
          omega
        · push_neg at hkF
          refine ⟨FwdError.sliceError F, ?_, rfl⟩
          rw [forward_error_iff_check]
          apply forwardCheck3_of_firstErr
          apply firstErr_first (embColErr m B T F xe) m.embeddings.length F
            (FwdError.sliceError F) hkF
          · intro i hi
            obtain ⟨emb, hget⟩ := exists_get?_of_lt (lt_trans hi hkF)
            rw [embColErr_eq_none_iff m B T F xe i emb hget]
            exact ⟨hi, hcB i emb hget hi⟩
          · unfold embColErr
            rw [if_pos (le_refl F)]
      · rintro ⟨B2, T2, hsh⟩
        injection hsh with hB hsh
        injection hsh with hT hsh
        injection hsh with hF2 _
        exact hF hF2

theorem C3_amended_shape_error_iff_witness :
    mW.WF ∧ mW.embeddings.length ≤ mW.n_features
      ∧ ((∃ e, DRSA.forward mW modeEval XW = Except.error e ∧ e.isShapeError = true)
          ↔ ¬∃ B T, XW.shape = [B, T, mW.n_features]) := by
  refine ⟨by decide, by decide,
    C3_amended_shape_error_iff mW modeEval XW (by decide) (by decide) ?_⟩
  intro B T F h
  have hB : B = 1 ∧ T = 1 ∧ F = 2 := by
    injection h with h1 h
    injection h with h2 h
    injection h with h3 _
    exact ⟨h1.symm, h2.symm, h3.symm⟩
  obtain ⟨hB1, hT1, hF2⟩ := hB
  subst hB1; subst hT1; subst hF2
  exact codesOK_below mW 1 1 2 xZero (intCodes_codesOK mW 1 1 xZero xZero_intCodes)

theorem embColErr_some_char (m : DRSA) (B T F : ℕ) (x : ℕ → ℕ → ℕ → ℚ)
    (i1 : ℕ) (emb1 : EmbTable) (hiF : i1 < F)
    (hget1 : m.embeddings.get? i1 = some emb1) (e : FwdError)
    (hcol1 : embColErr m B T F x i1 = some e) :
    e = FwdError.indexError i1 ∧ hasOOV B T emb1 x i1 = true := by
  unfold embColErr at hcol1
  rw [if_neg (not_le.mpr hiF), hget1] at hcol1
  have hcol2 : (if hasOOV B T emb1 x i1 = true
      then some (FwdError.indexError i1) else none) = some e := hcol1
  by_cases ho : hasOOV B T emb1 x i1 = true
  · rw [if_pos ho] at hcol2
    injection hcol2 with h
    exact ⟨h.symm, ho⟩
  · rw [if_neg ho] at hcol2
    cases hcol2

theorem embColErr_oov (m : DRSA) (B T F : ℕ) (x : ℕ → ℕ → ℕ → ℚ)
    (i : ℕ) (emb : EmbTable) (hiF : i < F)
    (hget : m.embeddings.get? i = some emb)
    (hOOV : hasOOV B T emb x i = true) :
    embColErr m B T F x i = some (FwdError.indexError i) := by
  unfold embColErr
  rw [if_neg (not_le.mpr hiF), hget]
  show (if hasOOV B T emb x i = true
    then some (FwdError.indexError i) else none) = some (FwdError.indexError i)
  rw [if_pos hOOV]

/-- C7 counterexample: the categorical column holds the negative value -1/2,
yet forward succeeds — truncation toward zero maps it to the in-vocabulary
index 0 — so a negative categorical value does not imply an IndexError. -/
theorem C7_counterexample :
    XNeg.entry 0 0 0 < 0
      ∧ exceptOk (DRSA.forward mW modeEval XNeg) = true := by
  constructor
  · decide
  · rfl

/-- C7 amended: on a rank-3 input whose trailing dimension admits all k
categorical columns, forward raises the vocabulary IndexError exactly when
some categorical column holds, at an in-range position, a value truncating
toward zero to an index outside [0, vocabulary_size) of its table; values in
(-1, 0] truncate to the valid index 0 and are accepted, so "any negative
value" does not raise, and in-vocabulary indices are looked up as-is (no
clamping or wrapping). -/
theorem C7_amended_index_error_iff (m : DRSA) (mode : Mode) (B T F : ℕ)
    (x : ℕ → ℕ → ℕ → ℚ) (hkF : m.embeddings.length ≤ F) :
    (∃ i, DRSA.forward m mode ⟨[B, T, F], x⟩ = Except.error (FwdError.indexError i))
      ↔ ∃ i emb, m.embeddings.get? i = some emb ∧ ∃ b < B, ∃ t < T,
          (truncQ (x b t i) < 0 ∨ (emb.num_embeddings : ℤ) ≤ truncQ (x b t i)) := by
  constructor
  · rintro ⟨i, hfwd⟩
    rw [forward_error_iff_check] at hfwd
    rcases forwardCheck3_some_cases m B T F x _ hfwd with hfe | hsz
    · obtain ⟨i1, hi1, hcol1⟩ := firstErr_some_ex _ _ _ hfe
      obtain ⟨emb1, hget1⟩ := exists_get?_of_lt hi1
      obtain ⟨_, ho⟩ := embColErr_some_char m B T F x i1 emb1 (by omega) hget1 _ hcol1
      obtain ⟨b, hb, t, ht, hoov⟩ := (hasOOV_eq_true_iff B T emb1 x i1).mp ho
      exact ⟨i1, emb1, hget1, b, hb, t, ht, hoov⟩
    · cases hsz
  · rintro ⟨i, emb, hget, b, hb, t, ht, hoov⟩
    have hik : i < m.embeddings.length := by
      by_contra hcon
      rw [List.get?_eq_none.mpr (by omega)] at hget
      cases hget
    have hcol : embColErr m B T F x i = some (FwdError.indexError i) :=
      embColErr_oov m B T F x i emb (by omega) hget
        ((hasOOV_eq_true_iff B T emb x i).mpr ⟨b, hb, t, ht, hoov⟩)
    cases hfe : firstErr (embColErr m B T F x) m.embeddings.length with
    | none =>
      have hnone := (firstErr_eq_none_iff _ _).mp hfe i hik
      rw [hcol] at hnone
      cases hnone
    | some e =>
      obtain ⟨i1, hi1, hcol1⟩ := firstErr_some_ex _ _ _ hfe
      obtain ⟨emb1, hget1⟩ := exists_get?_of_lt hi1
      have he : e = FwdError.indexError i1 :=
        (embColErr_some_char m B T F x i1 emb1 (by omega) hget1 e hcol1).1
      refine ⟨i1, ?_⟩
      rw [forward_error_iff_check]
      rw [he] at hfe
      exact forwardCheck3_of_firstErr m B T F x _ hfe

theorem C7_amended_index_error_iff_witness :
    mW.embeddings.length ≤ 3
      ∧ ((∃ i, DRSA.forward mW modeEval ⟨[1, 1, 3], XBad.entry⟩
            = Except.error (FwdError.indexError i))
          ↔ ∃ i emb, mW.embeddings.get? i = some emb ∧ ∃ b < 1, ∃ t < 1,
              (truncQ (XBad.entry b t i) < 0
                ∨ (emb.num_embeddings : ℤ) ≤ truncQ (XBad.entry b t i))) :=
  ⟨by decide, C7_amended_index_error_iff mW modeEval 1 1 3 XBad.entry (by decide)⟩

/-- C5: causality — for a pair of valid inputs of shape (B, T, n_features)
that agree (in range) at every timestep up to and including t0, the two
forward outputs agree exactly at every timestep up to t0: later timesteps of
the input never influence earlier outputs, because the recurrent state at
time t is built only from inputs at times ≤ t. -/
theorem C5_causality (m : DRSA) (mode : Mode) (B T : ℕ)
    (x x' : ℕ → ℕ → ℕ → ℚ) (t0 : ℕ) (hWF : m.WF)
    (hk : m.embeddings.length ≤ m.n_features)
    (hcx : IntCodes m B T x) (hcx' : IntCodes m B T x')
    (hag : ∀ b < B, ∀ s < T, s ≤ t0 → ∀ f < m.n_features, x b s f = x' b s f) :
    ∃ out out' : TensorR,
      DRSA.forward m mode ⟨[B, T, m.n_features], x⟩ = Except.ok out
        ∧ DRSA.forward m mode ⟨[B, T, m.n_features], x'⟩ = Except.ok out'
        ∧ ∀ b < B, ∀ t < T, t ≤ t0 → ∀ j, out.entry b t j = out'.entry b t j := by
  refine ⟨_, _, forward_ok_valid m mode B T x hWF hk (intCodes_codesOK m B T x hcx),
    forward_ok_valid m mode B T x' hWF hk (intCodes_codesOK m B T x' hcx'), ?_⟩
  intro b hb t htT ht0 j
  exact forwardNum_mode_agree m mode m.n_features x x' hk
    (fusedDim_eq_input m hWF hk) b t j
    (fun s hs f hf => hag b hb s (lt_of_le_of_lt hs htT) (le_trans hs ht0) f hf)

theorem C5_causality_witness :
    mW.WF ∧ mW.embeddings.length ≤ mW.n_features ∧ IntCodes mW 1 1 xZero
      ∧ ∃ out out' : TensorR,
          DRSA.forward mW modeEval ⟨[1, 1, mW.n_features], xZero⟩ = Except.ok out
            ∧ DRSA.forward mW modeEval ⟨[1, 1, mW.n_features], xZero⟩ = Except.ok out'
            ∧ ∀ b < 1, ∀ t < 1, t ≤ 0 → ∀ j, out.entry b t j = out'.entry b t j :=
  ⟨by decide, by decide, xZero_intCodes,
    C5_causality mW modeEval 1 1 xZero xZero 0 (by decide) (by decide)
      xZero_intCodes xZero_intCodes (fun b _ s _ _ f _ => rfl)⟩

/-- C6: determinism with dropout disabled — two forward calls in evaluation
mode (whatever dropout masks are supplied) on inputs of the same shape that
agree at every in-range position produce the same result: the same error, or
outputs of the same shape agreeing at every in-range position.  In the
exact-real embedding this is the bit-for-bit determinism of the source's
evaluation mode. -/
theorem C6_determinism (m : DRSA) (mode mode' : Mode) (X X' : TensorQ)
    (htr : mode.training = false) (htr' : mode'.training = false)
    (hsh : X.shape = X'.shape)
    (hag : ∀ B T F, X.shape = [B, T, F] →
      ∀ b < B, ∀ t < T, ∀ f < F, X.entry b t f = X'.entry b t f) :
    (∀ e, DRSA.forward m mode X = Except.error e
        ↔ DRSA.forward m mode' X' = Except.error e)
      ∧ ∀ out out', DRSA.forward m mode X = Except.ok out →
          DRSA.forward m mode' X' = Except.ok out' →
          out.shape = out'.shape
            ∧ ∀ B T F, X.shape = [B, T, F] →
                ∀ b < B, ∀ t < T, ∀ j, out.entry b t j = out'.entry b t j := by
  obtain ⟨shape, xe⟩ := X
  obtain ⟨shape', xe'⟩ := X'
  have hshp : shape = shape' := hsh
  subst hshp
  cases hbtf : shapeBTF shape with
  | none =>
    constructor
    · intro e
      rw [forward_rank_err m mode ⟨shape, xe⟩ hbtf,
        forward_rank_err m mode' ⟨shape, xe'⟩ hbtf]
    · intro out out' hok
      rw [forward_rank_err m mode ⟨shape, xe⟩ hbtf] at hok
      cases hok
  | some BTF =>
    obtain ⟨B, T, F⟩ := BTF
    have hsh2 : shape = [B, T, F] := shapeBTF_eq_some shape B T F hbtf
    subst hsh2
    have hagBTF : ∀ b < B, ∀ t < T, ∀ f < F, xe b t f = xe' b t f := hag B T F rfl
    have hcheck := forwardCheck3_congr m B T F xe xe' hagBTF
    cases hc : forwardCheck3 m B T F xe with
    | some e0 =>
      rw [hc] at hcheck
      constructor
      · intro e
        rw [forward_err_of_check m mode B T F xe e0 hc,
          forward_err_of_check m mode' B T F xe' e0 hcheck.symm]
      · intro out out' hok
        rw [forward_err_of_check m mode B T F xe e0 hc] at hok
        cases hok
    | none =>
      rw [hc] at hcheck
      have hok := forward_ok_of_check m mode B T F xe hc
      have hok' := forward_ok_of_check m mode' B T F xe' hcheck.symm
      constructor
      · intro e
        rw [hok, hok']
        constructor
        · intro hcon; cases hcon
        · intro hcon; cases hcon
      · intro out out' h1 h2
        rw [hok] at h1
        rw [hok'] at h2
        injection h1 with h1
        injection h2 with h2
        subst h1
        subst h2
        refine ⟨rfl, ?_⟩
        intro B2 T2 F2 hshape b hb t ht j
        injection hshape with hB hshape
        injection hshape with hT hshape
        injection hshape with hF2 _
        subst hB
        subst hT
        subst hF2
        obtain ⟨hcols, hdim⟩ := (forwardCheck3_eq_none_iff m B T F xe).mp hc
        have hkF : m.embeddings.length ≤ F := by
          by_cases hz : m.embeddings.length = 0
          · omega
          · have hlt : m.embeddings.length - 1 < m.embeddings.length := by omega
            obtain ⟨emb, hget⟩ := exists_get?_of_lt hlt
            have hlast := hcols (m.embeddings.length - 1) hlt
            rw [embColErr_eq_none_iff m B T F xe _ emb hget] at hlast
            omega
        exact forwardNum_eval_agree m mode mode' F xe xe' htr htr' hkF hdim b t j
          (fun s hs f hf => hagBTF b hb s (lt_of_le_of_lt hs ht) f hf)

theorem C6_determinism_witness :
    modeEval.training = false ∧ XW.shape = XW.shape
      ∧ ((∀ e, DRSA.forward mW modeEval XW = Except.error e
            ↔ DRSA.forward mW modeEval XW = Except.error e)
          ∧ ∀ out out', DRSA.forward mW modeEval XW = Except.ok out →
              DRSA.forward mW modeEval XW = Except.ok out' →
              out.shape = out'.shape
                ∧ ∀ B T F, XW.shape = [B, T, F] →
                    ∀ b < B, ∀ t < T, ∀ j, out.entry b t j = out'.entry b t j) :=
  ⟨rfl, rfl,
    C6_determinism mW modeEval modeEval XW XW rfl rfl rfl
      (fun B T F _ b _ t _ f _ => rfl)⟩
